import Mathlib

/-!
Verification development for the dans-gdal-scripts mask/polygon core
(src/src/mask.cc and src/src/polygon.h).

Coordinates are C++ doubles in the source; they are modelled exactly as
rationals here.  Machine loop counters (size_t / int) are modelled as Nat/Int.
Bodies that live in files of the repository outside src/ (mask.h, polygon.cc,
ndv.h) are modelled from the specification, and their doc comments say so.
-/

namespace dangdal

/-- Vertex (polygon.h lines 51-56): planar point with double-precision
coordinates, modelled exactly as rationals.  Default constructor gives (0,0). -/
structure Vertex where
  x : ℚ
  y : ℚ
  deriving DecidableEq

/-- Bbox (polygon.h lines 58-83): axis-aligned bounding box accumulator with
an `empty` flag marking the initial state. -/
structure Bbox where
  min_x : ℚ
  max_x : ℚ
  min_y : ℚ
  max_y : ℚ
  empty : Bool
  deriving DecidableEq

/-- Bbox default constructor (polygon.h lines 60-64): zero extents, empty. -/
def Bbox.init : Bbox := ⟨0, 0, 0, 0, true⟩

/-- Bbox::expand(const Vertex &) (polygon.h lines 66-77): the first point
establishes min = max = point, later points widen the extents. -/
def Bbox.expand (bb : Bbox) (v : Vertex) : Bbox :=
  if bb.empty then
    { min_x := v.x, max_x := v.x, min_y := v.y, max_y := v.y, empty := false }
  else
    { bb with
      min_x := if v.x < bb.min_x then v.x else bb.min_x,
      min_y := if v.y < bb.min_y then v.y else bb.min_y,
      max_x := if v.x > bb.max_x then v.x else bb.max_x,
      max_y := if v.y > bb.max_y then v.y else bb.max_y }

/-- is_disjoint (polygon.h lines 87-94), translated clause for clause: two
boxes are disjoint if either is empty or their extents fail to overlap on
some axis. -/
def is_disjoint (bb1 bb2 : Bbox) : Bool :=
  bb1.empty || bb2.empty ||
  decide (bb1.min_x > bb2.max_x) || decide (bb1.min_y > bb2.max_y) ||
  decide (bb2.min_x > bb1.max_x) || decide (bb2.min_y > bb1.max_y)

/-- Ring (polygon.h lines 96-118): ordered vertex list forming an implicitly
closed boundary, with a hole flag and a parent index.  The default
constructor gives is_hole = false, parent_id = -1. -/
structure Ring where
  pts : List Vertex
  is_hole : Bool
  parent_id : Int
  deriving DecidableEq

/-- Modelled from the spec: the body of Ring::getBbox lives in polygon.cc,
which is not under src/.  Spec section 4.3 says it folds expand(vertex) over
all points, starting from the default (empty) box. -/
def Ring.getBbox (r : Ring) : Bbox :=
  r.pts.foldl Bbox.expand Bbox.init

/-- Cross-product term of the shoelace sum for one directed edge a -> b. -/
def edgeCross (a b : Vertex) : ℚ := a.x * b.y - b.x * a.y

/-- Sum of edgeCross over the consecutive (non-closing) edges of a path. -/
def pathSum : List Vertex → ℚ
  | [] => 0
  | [_] => 0
  | a :: b :: l => edgeCross a b + pathSum (b :: l)

/-- Shoelace sum over the implicitly closed ring: the open-path sum plus the
closing edge from the last point back to the first.  (For the empty list the
closing term is edgeCross of the default vertex with itself, which is 0.) -/
def shoelace (l : List Vertex) : ℚ :=
  pathSum l + edgeCross (l.getLastD ⟨0, 0⟩) (l.headD ⟨0, 0⟩)

/-- Modelled from the spec: the body of Ring::orientedArea lives in
polygon.cc, which is not under src/.  Spec section 4.3: the shoelace sum of
cross products of consecutive edges over the implicitly closed ring, divided
by two; positive means counter-clockwise. -/
def Ring.orientedArea (r : Ring) : ℚ := shoelace r.pts / 2

/-- Modelled from the spec: Ring::area returns the absolute value of the
oriented area (spec section 4.3). -/
def Ring.area (r : Ring) : ℚ := |r.orientedArea|

/-- Ring::reverse (polygon.h line 105): flips the point order in place. -/
def Ring.reverse (r : Ring) : Ring := { r with pts := r.pts.reverse }

/-- Edge list of the implicitly closed ring: each point paired with its
cyclic successor. -/
def ringEdges (r : Ring) : List (Vertex × Vertex) :=
  r.pts.zip (r.pts.rotate 1)

/-- Whether the horizontal ray from p to the right crosses the edge (a, b);
one building block of the crossing-number test. -/
def edgeRayCrosses (p a b : Vertex) : Bool :=
  (decide (a.y > p.y) != decide (b.y > p.y)) &&
  decide (p.x < a.x + (p.y - a.y) * (b.x - a.x) / (b.y - a.y))

/-- Modelled from the spec: the body of Ring::contains lives in polygon.cc,
which is not under src/.  Spec section 4.3 describes a standard
crossing-number / ray-casting test against the ring's edges, treating the
ring as closed. -/
def Ring.contains (r : Ring) (p : Vertex) : Bool :=
  (ringEdges r).foldl (fun acc e => if edgeRayCrosses p e.1 e.2 then !acc else acc) false

/-- Orientation of point c relative to the directed line a -> b. -/
def orient (a b c : Vertex) : ℚ :=
  (b.x - a.x) * (c.y - a.y) - (b.y - a.y) * (c.x - a.x)

/-- Modelled from the spec: the body of line_intersects_line lives in
polygon.cc, which is not under src/.  Spec sections 4.3 and 7: a proper
segment-crossing test, with the documented tie-break that coincident-endpoint
and overlapping degenerate touches do not count as crossings. -/
def line_intersects_line (p1 p2 p3 p4 : Vertex) : Bool :=
  decide (orient p1 p2 p3 * orient p1 p2 p4 < 0) &&
  decide (orient p3 p4 p1 * orient p3 p4 p2 < 0)

/-- RingRelation (polygon.h lines 44-49): result of ring_ring_relation. -/
inductive RingRelation where
  | RINGREL_CONTAINS
  | RINGREL_CONTAINED_BY
  | RINGREL_CROSSES
  | RINGREL_DISJOINT
  deriving DecidableEq

/-- Whether any edge of r1 properly crosses any edge of r2. -/
def ringsCross (r1 r2 : Ring) : Bool :=
  (ringEdges r1).any (fun e1 => (ringEdges r2).any (fun e2 =>
    line_intersects_line e1.1 e1.2 e2.1 e2.2))

/-- Modelled from the spec: the body of ring_ring_relation lives in
polygon.cc, which is not under src/.  Spec section 4.3: first the cheap
bounding-box rejection (disjoint boxes give RINGREL_DISJOINT with no further
geometry work); otherwise a proper edge crossing gives RINGREL_CROSSES;
otherwise a sampled vertex of each ring is tested against the other ring to
decide containment, and RINGREL_DISJOINT is returned when neither ring
contains the other. -/
def ring_ring_relation (r1 r2 : Ring) : RingRelation :=
  if is_disjoint r1.getBbox r2.getBbox then .RINGREL_DISJOINT
  else if ringsCross r1 r2 then .RINGREL_CROSSES
  else if r2.contains (r1.pts.headD ⟨0, 0⟩) then .RINGREL_CONTAINED_BY
  else if r1.contains (r2.pts.headD ⟨0, 0⟩) then .RINGREL_CONTAINS
  else .RINGREL_DISJOINT

/-- Mpoly (polygon.h lines 120-135): ordered collection of rings; holes
reference their outer ring by position, so insertion order is significant. -/
structure Mpoly where
  rings : List Ring
  deriving DecidableEq

/-- Modelled from the spec: the body of Mpoly::deleteRing lives in
polygon.cc, which is not under src/.  Spec section 4.3: the ring at idx is
removed; every remaining hole with parent_id > idx has it decremented by 1 so
that it keeps referencing the same logical outer ring; a hole whose parent_id
equals idx is orphaned and is deleted too (the spec's explicit-policy
choice), never left dangling. -/
def Mpoly.deleteRing (m : Mpoly) (idx : Nat) : Mpoly :=
  { rings :=
      ((m.rings.eraseIdx idx).filter
        (fun r => !(r.is_hole && r.parent_id == (idx : Int)))).map
        (fun r => if (idx : Int) < r.parent_id then { r with parent_id := r.parent_id - 1 }
                  else r) }

/-- Modelled from the spec: the BitGrid class definition lives in mask.h,
which is not under src/.  A BitGrid is a boolean grid of fixed width and
height; the packed sub-byte storage is abstracted to a total bit function.
Per spec section 4.1 a lookup outside the grid counts as unset, matching how
BitGrid::erode in src/src/mask.cc reads the row below the last row. -/
structure BitGrid where
  w : Nat
  h : Nat
  data : Nat → Nat → Bool

/-- Modelled from the spec: BitGrid::get returns the stored bit for in-range
coordinates and false outside the grid. -/
def BitGrid.get (g : BitGrid) (x y : Nat) : Bool :=
  if x < g.w && y < g.h then g.data x y else false

/-- BitGrid::get at Int coordinates, for stating the neighbour stencil where
x-1 or y-1 may be negative; out-of-grid reads are false. -/
def BitGrid.getI (g : BitGrid) (x y : Int) : Bool :=
  if 0 ≤ x ∧ x < (g.w : Int) ∧ 0 ≤ y ∧ y < (g.h : Int) then g.data x.toNat y.toNat
  else false

/-- Modelled from the spec: BitGrid::set stores a bit at (x, y); the caller
guarantees in-range coordinates (spec section 4.1). -/
def BitGrid.set (g : BitGrid) (x y : Nat) (b : Bool) : BitGrid :=
  { g with data := fun i j => if i = x ∧ j = y then b else g.data i j }

/-- Modelled from the spec: BitGrid(w, h) allocates a grid and
BitGrid::zero clears all bits. -/
def BitGrid.construct (w h : Nat) : BitGrid := ⟨w, h, fun _ _ => false⟩

/-- Modelled from the spec: BitGrid::zero clears all bits. -/
def BitGrid.zero (g : BitGrid) : BitGrid := { g with data := fun _ _ => false }

/-- The survival condition of BitGrid::erode (src/src/mask.cc lines 284-287)
on the eight neighbour registers, in the code's variable order: at least one
of the eight consecutive pairs around the ring of neighbours is fully set. -/
def survivesPair (ul um ur ml mr ll lm lr : Bool) : Bool :=
  (ul && um) || (um && ur) || (ur && mr) || (mr && lr) ||
  (lr && lm) || (lm && ll) || (ll && ml) || (ml && ul)

/-- Inner x loop of BitGrid::erode (src/src/mask.cc lines 274-291): walks one
row carrying the shift registers ul, um, ml, mm, ll, lm over the three row
buffers, clearing every pixel that has no two consecutive filled neighbours.
Structural recursion on fuel, which starts at w so that x runs 0..w-1. -/
def erodeRowGo (rowu rowm rowl : Nat → Bool) (w y : Nat) :
    Nat → Nat → Bool → Bool → Bool → Bool → Bool → Bool → BitGrid → BitGrid
  | 0, _, _, _, _, _, _, _, g => g
  | fuel + 1, x, ul, um, ml, mm, ll, lm, g =>
      let ur := if x + 1 < w then rowu (x + 1) else false
      let mr := if x + 1 < w then rowm (x + 1) else false
      let lr := if x + 1 < w then rowl (x + 1) else false
      let g' := if !survivesPair ul um ur ml mr ll lm lr
                then g.set x y false else g
      erodeRowGo rowu rowm rowl w y fuel (x + 1) um ur mm mr lm lr g'

/-- Outer y loop of BitGrid::erode (src/src/mask.cc lines 267-292): at each
row the three buffers rotate (rowu takes the old middle row, the middle takes
the old lower row) and the new lower buffer is loaded from row y+1 of the
grid as it currently stands; then the inner loop processes row y starting
from registers ul = ml = ll = 0 and um, mm, lm read at index 0.  Structural
recursion on fuel, which starts at h so that y runs 0..h-1. -/
def erodeGo (w h : Nat) : Nat → Nat → (Nat → Bool) → (Nat → Bool) → BitGrid → BitGrid
  | 0, _, _, _, g => g
  | fuel + 1, y, rowm, rowl, g =>
      if y < h then
        let rowu := rowm
        let rowm' := rowl
        let rowl' := fun i => g.get i (y + 1)
        let g' := erodeRowGo rowu rowm' rowl' w y w 0
                    false (rowu 0) false (rowm' 0) false (rowl' 0) g
        erodeGo w h fuel (y + 1) rowm' rowl' g'
      else g

/-- BitGrid::erode (src/src/mask.cc lines 258-297): single-pass morphological
filter over a rotating buffer of three rows.  Initially the middle buffer is
all zero (the virtual row above row 0) and the lower buffer holds row 0. -/
def BitGrid.erode (g : BitGrid) : BitGrid :=
  erodeGo g.w g.h g.h 0 (fun _ => false) (fun i => g.get i 0) g

/-- The eight-neighbour survival rule that BitGrid::erode implements, stated
over the pre-erosion grid: at least one of the eight consecutive pairs
(ul,u),(u,ur),(ur,r),(r,lr),(lr,d),(d,ll),(ll,l),(l,ul) around the ring of
neighbours is fully set, where u/d/l/r are the axial neighbours, ul/ur/ll/lr
the diagonal ones, and a neighbour outside the grid counts as unset.  These
are exactly the register pairs of the code, with u = um, l = ml, r = mr,
d = lm. -/
def erodeKeep (g : BitGrid) (x y : Nat) : Bool :=
  survivesPair
    (g.getI ((x : Int) - 1) ((y : Int) - 1))
    (g.getI (x : Int) ((y : Int) - 1))
    (g.getI ((x : Int) + 1) ((y : Int) - 1))
    (g.getI ((x : Int) - 1) (y : Int))
    (g.getI ((x : Int) + 1) (y : Int))
    (g.getI ((x : Int) - 1) ((y : Int) + 1))
    (g.getI (x : Int) ((y : Int) + 1))
    (g.getI ((x : Int) + 1) ((y : Int) + 1))

/-- The survival rule exactly as the claim words it, with the pair list
(ul,u),(u,ur),(ur,r),(r,lr),(lr,l),(l,ll),(ll,d),(d,ul) read under the
standard meaning u = up, d = down, l = left, r = right. -/
def erodeKeepClaimed (g : BitGrid) (x y : Nat) : Bool :=
  let ul := g.getI ((x : Int) - 1) ((y : Int) - 1)
  let u := g.getI (x : Int) ((y : Int) - 1)
  let ur := g.getI ((x : Int) + 1) ((y : Int) - 1)
  let l := g.getI ((x : Int) - 1) (y : Int)
  let r := g.getI ((x : Int) + 1) (y : Int)
  let ll := g.getI ((x : Int) - 1) ((y : Int) + 1)
  let d := g.getI (x : Int) ((y : Int) + 1)
  let lr := g.getI ((x : Int) + 1) ((y : Int) + 1)
  (ul && u) || (u && ur) || (ur && r) || (r && lr) ||
  (lr && l) || (l && ll) || (ll && d) || (d && ul)

/-- Inner x loop of BitGrid::centroid (src/src/mask.cc lines 302-308):
accumulates the coordinate sums and the count of set pixels along row y. -/
def centroidRowGo (g : BitGrid) (y : Nat) : Nat → Nat → Int × Int × Int → Int × Int × Int
  | 0, _, acc => acc
  | fuel + 1, x, (ax, ay, cnt) =>
      centroidRowGo g y fuel (x + 1)
        (if g.get x y then (ax + (x : Int), ay + (y : Int), cnt + 1) else (ax, ay, cnt))

/-- Outer y loop of BitGrid::centroid (src/src/mask.cc lines 301-309). -/
def centroidGo (g : BitGrid) : Nat → Nat → Int × Int × Int → Int × Int × Int
  | 0, _, acc => acc
  | fuel + 1, y, acc => centroidGo g fuel (y + 1) (centroidRowGo g y g.w 0 acc)

/-- The accumulators of BitGrid::centroid (src/src/mask.cc lines 299-314):
accum_x, accum_y and cnt at the moment the function divides and returns.
There is no check of cnt in the code. -/
def BitGrid.centroidAccum (g : BitGrid) : Int × Int × Int :=
  centroidGo g g.h 0 (0, 0, 0)

/-- BitGrid::centroid (src/src/mask.cc lines 299-314): divides the
accumulated sums by cnt and returns, with no error path.  In C++ the
division is on doubles, so cnt = 0 silently yields NaN coordinates; in this
rational model the Lean convention makes the quotient by zero 0.  Either
way, no degenerate-input error is raised. -/
def BitGrid.centroid (g : BitGrid) : Vertex :=
  let acc := g.centroidAccum
  ⟨(acc.1 : ℚ) / (acc.2.2 : ℚ), (acc.2.1 : ℚ) / (acc.2.2 : ℚ)⟩

/-- Modelled from the spec: the raster-source collaborator (a GDAL dataset in
the code) exposes width, height, band count, a per-band native block size and
per-pixel sample values (spec section 6).  Samples are modelled as rationals,
covering uniformly the 8-bit and floating-point paths of
get_bitgrid_for_dataset, which apply the same downstream logic to both. -/
structure RasterDataset where
  w : Nat
  h : Nat
  band_count : Nat
  blocksize_x : Nat → Nat
  blocksize_y : Nat → Nat
  sample : Nat → Nat → Nat → ℚ

/-- Modelled from the spec: the NdvDef collaborator (ndv.h, not under src/)
classifies each sample of a row independently as no-data or valid via a
per-band-position predicate, and exposes a global invert flag
(spec sections 4.2 and 6). -/
structure NdvDef where
  invert : Bool
  check : Nat → ℚ → Bool

/-- NdvDef::isInvert. -/
def NdvDef.isInvert (nd : NdvDef) : Bool := nd.invert

/-- Seed row write of get_bitgrid_for_dataset (src/src/mask.cc lines
212-215): for the band at position 0, every pixel of the row is set to the
negation of its no-data flag. -/
def maskRowSeed (row_ndv : Nat → Bool) (boff_x y : Nat) :
    Nat → Nat → BitGrid → BitGrid
  | 0, _, mask => mask
  | fuel + 1, i, mask =>
      maskRowSeed row_ndv boff_x y fuel (i + 1)
        (mask.set (boff_x + i) y (!row_ndv i))

/-- Invert-mode row write of get_bitgrid_for_dataset (src/src/mask.cc lines
216-219): a later band forces a pixel false where it is no-data. -/
def maskRowInvert (row_ndv : Nat → Bool) (boff_x y : Nat) :
    Nat → Nat → BitGrid → BitGrid
  | 0, _, mask => mask
  | fuel + 1, i, mask =>
      maskRowInvert row_ndv boff_x y fuel (i + 1)
        (if row_ndv i then mask.set (boff_x + i) y false else mask)

/-- Union-mode row write of get_bitgrid_for_dataset (src/src/mask.cc lines
220-223): a later band sets a pixel true where it is not no-data. -/
def maskRowUnion (row_ndv : Nat → Bool) (boff_x y : Nat) :
    Nat → Nat → BitGrid → BitGrid
  | 0, _, mask => mask
  | fuel + 1, i, mask =>
      maskRowUnion row_ndv boff_x y fuel (i + 1)
        (if !row_ndv i then mask.set (boff_x + i) y true else mask)

/-- Row loop within one block of get_bitgrid_for_dataset (src/src/mask.cc
lines 186-225): for each row j the NDV predicate classifies the row's
samples in one batched call, then one of the three row writes applies.  The
debug-plot and progress side effects of the source are observational only
(spec section 4.2) and are not modelled.  Fuel starts at bsize_y. -/
def blockRowsGo (ds : RasterDataset) (nd : NdvDef)
    (bandlist_idx band_idx boff_x boff_y bsize_x : Nat) :
    Nat → Nat → BitGrid → BitGrid
  | 0, _, mask => mask
  | fuel + 1, j, mask =>
      let y := boff_y + j
      let row_ndv : Nat → Bool :=
        fun i => nd.check bandlist_idx (ds.sample band_idx (boff_x + i) y)
      let mask' :=
        if bandlist_idx = 0 then maskRowSeed row_ndv boff_x y bsize_x 0 mask
        else if nd.isInvert then maskRowInvert row_ndv boff_x y bsize_x 0 mask
        else maskRowUnion row_ndv boff_x y bsize_x 0 mask
      blockRowsGo ds nd bandlist_idx band_idx boff_x boff_y bsize_x fuel (j + 1) mask'

/-- Horizontal block loop of get_bitgrid_for_dataset (src/src/mask.cc lines
159-226): boff_x walks 0, bx, 2bx, ... while < w, each block clipped to the
image edge.  Fuel starts at w, which is enough for any positive bx. -/
def bandXBlocksGo (ds : RasterDataset) (nd : NdvDef)
    (bandlist_idx band_idx bx boff_y bsize_y : Nat) :
    Nat → Nat → BitGrid → BitGrid
  | 0, _, mask => mask
  | fuel + 1, boff_x, mask =>
      if boff_x < ds.w then
        let bsize_x := if bx + boff_x > ds.w then ds.w - boff_x else bx
        let mask' := blockRowsGo ds nd bandlist_idx band_idx boff_x boff_y
                       bsize_x bsize_y 0 mask
        bandXBlocksGo ds nd bandlist_idx band_idx bx boff_y bsize_y fuel
          (boff_x + bx) mask'
      else mask

/-- Vertical block loop of get_bitgrid_for_dataset (src/src/mask.cc lines
156-227).  Fuel starts at h. -/
def bandYBlocksGo (ds : RasterDataset) (nd : NdvDef)
    (bandlist_idx band_idx bx bsy : Nat) :
    Nat → Nat → BitGrid → BitGrid
  | 0, _, mask => mask
  | fuel + 1, boff_y, mask =>
      if boff_y < ds.h then
        let bsize_y := if bsy + boff_y > ds.h then ds.h - boff_y else bsy
        let mask' := bandXBlocksGo ds nd bandlist_idx band_idx bx boff_y
                       bsize_y ds.w 0 mask
        bandYBlocksGo ds nd bandlist_idx band_idx bx bsy fuel (boff_y + bsy) mask'
      else mask

/-- One full band scan of get_bitgrid_for_dataset (src/src/mask.cc lines
132-227): the band's native block size drives the tiling. -/
def processBand (ds : RasterDataset) (nd : NdvDef)
    (bandlist_idx band_idx : Nat) (mask : BitGrid) : BitGrid :=
  bandYBlocksGo ds nd bandlist_idx band_idx
    (ds.blocksize_x band_idx) (ds.blocksize_y band_idx) ds.h 0 mask

/-- Message of the fatal_error call at src/src/mask.cc line 130. -/
def bandRangeError : String := "bandid out of range"

/-- Band loop of get_bitgrid_for_dataset (src/src/mask.cc lines 128-228):
bands are processed in list order; a band index outside [1, band_count] is a
fatal error that aborts the whole build (fatal_error never returns, modelled
as Except.error). -/
def bandsGo (ds : RasterDataset) (nd : NdvDef) :
    List Nat → Nat → BitGrid → Except String BitGrid
  | [], _, mask => .ok mask
  | band_idx :: rest, bandlist_idx, mask =>
      if band_idx < 1 || band_idx > ds.band_count then .error bandRangeError
      else bandsGo ds nd rest (bandlist_idx + 1)
             (processBand ds nd bandlist_idx band_idx mask)

/-- get_bitgrid_for_dataset (src/src/mask.cc lines 114-243): allocates a
w-by-h mask, zeroes it, then folds every listed band over it. -/
def get_bitgrid_for_dataset (ds : RasterDataset) (bandlist : List Nat)
    (nd : NdvDef) : Except String BitGrid :=
  bandsGo ds nd bandlist 0 ((BitGrid.construct ds.w ds.h).zero)

/-- How one band pass combines a pixel's previous mask value with the pixel's
no-data flag (the three branches at src/src/mask.cc lines 212-224): position
0 seeds the mask, later bands intersect when the predicate is inverted and
union otherwise. -/
def bandUpdate (bandlist_idx : Nat) (invert old ndv : Bool) : Bool :=
  if bandlist_idx = 0 then !ndv
  else if invert then old && !ndv
  else old || !ndv

/-! Concrete objects used by witnesses and counterexamples. -/

/-- A unit square ring near the origin. -/
def wRing1 : Ring := ⟨[⟨0, 0⟩, ⟨1, 0⟩, ⟨1, 1⟩, ⟨0, 1⟩], false, -1⟩

/-- A unit square ring far from the origin; its bounding box misses wRing1's. -/
def wRing2 : Ring := ⟨[⟨5, 5⟩, ⟨6, 5⟩, ⟨6, 6⟩, ⟨5, 6⟩], false, -1⟩

/-- Two outer rings, a hole of ring 0 and a hole of ring 1. -/
def wMpoly : Mpoly :=
  ⟨[⟨[⟨0, 0⟩, ⟨4, 0⟩, ⟨4, 4⟩, ⟨0, 4⟩], false, -1⟩,
    ⟨[⟨10, 0⟩, ⟨14, 0⟩, ⟨14, 4⟩, ⟨10, 4⟩], false, -1⟩,
    ⟨[⟨1, 1⟩, ⟨2, 1⟩, ⟨2, 2⟩, ⟨1, 2⟩], true, 0⟩,
    ⟨[⟨11, 1⟩, ⟨12, 1⟩, ⟨12, 2⟩, ⟨11, 2⟩], true, 1⟩]⟩

/-- A 2-by-2 grid with no pixel set. -/
def emptyGrid22 : BitGrid := (BitGrid.construct 2 2).zero

/-- A 4-by-4 grid with every pixel set. -/
def allTrue44 : BitGrid := ⟨4, 4, fun _ _ => true⟩

/-- A 3-by-3 grid with every pixel set. -/
def allTrue33 : BitGrid := ⟨3, 3, fun _ _ => true⟩

/-- A 3-by-3 grid whose set pixels are the centre (1,1), its left neighbour
(0,1) and its lower-right neighbour (2,2). -/
def g3 : BitGrid :=
  ⟨3, 3, fun x y => (x == 1 && y == 1) || (x == 0 && y == 1) || (x == 2 && y == 2)⟩

/-- A 1-by-1 raster source with one band, unit block size and constant
samples. -/
def wDs : RasterDataset :=
  { w := 1, h := 1, band_count := 1,
    blocksize_x := fun _ => 1, blocksize_y := fun _ => 1,
    sample := fun _ _ _ => 0 }

/-- A no-data predicate marking the value 5 as no-data, invert off. -/
def wNd : NdvDef := { invert := false, check := fun _ v => decide (v = 5) }

/-! Lemmas about the shoelace sum, towards claim C8. -/

lemma edgeCross_self (a : Vertex) : edgeCross a a = 0 := by
  unfold edgeCross; ring

lemma edgeCross_swap (a b : Vertex) : edgeCross b a = -edgeCross a b := by
  unfold edgeCross; ring

lemma pathSum_concat (l : List Vertex) (z : Vertex) :
    pathSum (l ++ [z]) = pathSum l + edgeCross (l.getLastD z) z := by
  induction l with
  | nil => simp [pathSum, edgeCross_self]
  | cons a t ih =>
    cases t with
    | nil => simp [pathSum]
    | cons b u =>
      have hlast : (a :: b :: u).getLastD z = (b :: u).getLastD z := by
        rw [List.getLastD_eq_getLast?, List.getLastD_eq_getLast?,
          List.getLast?_cons_cons]
      calc pathSum ((a :: b :: u) ++ [z])
          = edgeCross a b + pathSum ((b :: u) ++ [z]) := rfl
        _ = edgeCross a b + (pathSum (b :: u) + edgeCross ((b :: u).getLastD z) z) := by
            rw [ih]
        _ = pathSum (a :: b :: u) + edgeCross ((a :: b :: u).getLastD z) z := by
            rw [hlast]; simp only [pathSum]; ring

lemma pathSum_reverse (l : List Vertex) : pathSum l.reverse = -pathSum l := by
  induction l with
  | nil => simp [pathSum]
  | cons a t ih =>
    rw [List.reverse_cons, pathSum_concat, ih]
    cases t with
    | nil => simp [pathSum, edgeCross_self]
    | cons b u =>
      have h1 : (b :: u).reverse.getLastD a = b := by
        rw [List.getLastD_eq_getLast?, List.getLast?_reverse]; rfl
      rw [h1]
      simp only [pathSum]
      rw [edgeCross_swap]
      ring

lemma shoelace_reverse (l : List Vertex) : shoelace l.reverse = -shoelace l := by
  unfold shoelace
  rw [pathSum_reverse]
  have h1 : l.reverse.getLastD ⟨0, 0⟩ = l.headD ⟨0, 0⟩ := by
    rw [List.getLastD_eq_getLast?, List.getLast?_reverse, List.headD_eq_head?]
  have h2 : l.reverse.headD ⟨0, 0⟩ = l.getLastD ⟨0, 0⟩ := by
    rw [List.headD_eq_head?, List.head?_reverse, List.getLastD_eq_getLast?]
  rw [h1, h2, edgeCross_swap]
  ring

/-! Basic BitGrid access lemmas. -/

lemma BitGrid.set_w (g : BitGrid) (x y : Nat) (b : Bool) : (g.set x y b).w = g.w := rfl

lemma BitGrid.set_h (g : BitGrid) (x y : Nat) (b : Bool) : (g.set x y b).h = g.h := rfl

lemma BitGrid.get_set_same (g : BitGrid) {x y : Nat} (hx : x < g.w) (hy : y < g.h)
    (b : Bool) : (g.set x y b).get x y = b := by
  simp [BitGrid.get, BitGrid.set, hx, hy]

lemma BitGrid.get_set_ne (g : BitGrid) {x y x' y' : Nat} (hne : ¬(x' = x ∧ y' = y))
    (b : Bool) : (g.set x y b).get x' y' = g.get x' y' := by
  simp only [BitGrid.get, BitGrid.set]
  split
  · simp [hne]
  · rfl

lemma BitGrid.get_oob_x (g : BitGrid) {x : Nat} (hx : g.w ≤ x) (y : Nat) :
    g.get x y = false := by
  simp [BitGrid.get, Nat.not_lt.mpr hx]

lemma BitGrid.get_oob_y (g : BitGrid) (x : Nat) {y : Nat} (hy : g.h ≤ y) :
    g.get x y = false := by
  simp [BitGrid.get, Nat.not_lt.mpr hy]

lemma BitGrid.getI_coe (g : BitGrid) (x y : Nat) :
    g.getI (x : Int) (y : Int) = g.get x y := by
  simp only [BitGrid.getI, BitGrid.get]
  by_cases hx : x < g.w <;> by_cases hy : y < g.h <;>
    simp [hx, hy, Nat.cast_lt, Int.natCast_nonneg, Int.toNat_natCast]

lemma BitGrid.getI_oob_x (g : BitGrid) {x : Int} (y : Int) (hx : (g.w : Int) ≤ x) :
    g.getI x y = false := by
  simp only [BitGrid.getI]
  rw [if_neg]
  intro h
  exact absurd h.2.1 (not_lt.mpr hx)

lemma BitGrid.getI_neg_x (g : BitGrid) {x : Int} (y : Int) (hx : x < 0) :
    g.getI x y = false := by
  simp only [BitGrid.getI]
  rw [if_neg]
  intro h
  exact absurd h.1 (not_le.mpr hx)

lemma BitGrid.getI_neg_y (g : BitGrid) (x : Int) {y : Int} (hy : y < 0) :
    g.getI x y = false := by
  simp only [BitGrid.getI]
  rw [if_neg]
  intro h
  exact absurd h.2.2.1 (not_le.mpr hy)

/-! Lemmas characterising BitGrid::erode pointwise, towards claims C1, C4
and C10.  The inner loop is described by a register invariant: at position x
the six carried registers hold the in-grid neighbour values around column x,
expressed through getI over the pre-erosion grid. -/

lemma erodeKeep_fold (g : BitGrid) (x y : Nat) :
    survivesPair
      (g.getI ((x : Int) - 1) ((y : Int) - 1))
      (g.getI (x : Int) ((y : Int) - 1))
      (g.getI ((x : Int) + 1) ((y : Int) - 1))
      (g.getI ((x : Int) - 1) (y : Int))
      (g.getI ((x : Int) + 1) (y : Int))
      (g.getI ((x : Int) - 1) ((y : Int) + 1))
      (g.getI (x : Int) ((y : Int) + 1))
      (g.getI ((x : Int) + 1) ((y : Int) + 1)) = erodeKeep g x y := rfl

lemma erodeRowGo_dims (rowu rowm rowl : Nat → Bool) (w y : Nat) :
    ∀ fuel x ul um ml mm ll lm g,
      (erodeRowGo rowu rowm rowl w y fuel x ul um ml mm ll lm g).w = g.w ∧
      (erodeRowGo rowu rowm rowl w y fuel x ul um ml mm ll lm g).h = g.h := by
  intro fuel
  induction fuel with
  | zero => intro x ul um ml mm ll lm g; exact ⟨rfl, rfl⟩
  | succ n ih =>
    intro x ul um ml mm ll lm g
    simp only [erodeRowGo]
    constructor
    · refine (ih _ _ _ _ _ _ _ _).1.trans ?_
      simp only [apply_ite BitGrid.w, BitGrid.set_w, ite_self]
    · refine (ih _ _ _ _ _ _ _ _).2.trans ?_
      simp only [apply_ite BitGrid.h, BitGrid.set_h, ite_self]

lemma erodeRowGo_frame (rowu rowm rowl : Nat → Bool) (w y : Nat) :
    ∀ fuel x ul um ml mm ll lm g x' y', (y' ≠ y ∨ x' < x) →
      (erodeRowGo rowu rowm rowl w y fuel x ul um ml mm ll lm g).get x' y' =
        g.get x' y' := by
  intro fuel
  induction fuel with
  | zero => intro x ul um ml mm ll lm g x' y' _; rfl
  | succ n ih =>
    intro x ul um ml mm ll lm g x' y' hcond
    simp only [erodeRowGo]
    refine (ih (x + 1) _ _ _ _ _ _ _ x' y' ?_).trans ?_
    · cases hcond with
      | inl h => exact Or.inl h
      | inr h => exact Or.inr (Nat.lt_succ_of_lt h)
    · have hne : ¬(x' = x ∧ y' = y) := by
        rintro ⟨rfl, rfl⟩
        cases hcond with
        | inl h => exact h rfl
        | inr h => exact Nat.lt_irrefl _ h
      simp only [apply_ite (fun gr => BitGrid.get gr x' y'),
        BitGrid.get_set_ne g hne false, ite_self]

lemma erodeRowGo_spec (orig : BitGrid) (rowu rowm rowl : Nat → Bool) (y : Nat)
    (hu : ∀ i, rowu i = orig.getI (i : Int) ((y : Int) - 1))
    (hm : ∀ i, rowm i = orig.get i y)
    (hl : ∀ i, rowl i = orig.get i (y + 1))
    (hy : y < orig.h) :
    ∀ fuel x ul um ml mm ll lm g,
      g.w = orig.w → g.h = orig.h →
      (x < orig.w →
        ul = orig.getI ((x : Int) - 1) ((y : Int) - 1) ∧
        um = orig.getI (x : Int) ((y : Int) - 1) ∧
        ml = orig.getI ((x : Int) - 1) (y : Int) ∧
        mm = orig.get x y ∧
        ll = orig.getI ((x : Int) - 1) ((y : Int) + 1) ∧
        lm = orig.getI (x : Int) ((y : Int) + 1)) →
      ∀ t, x ≤ t → t < orig.w → t < x + fuel →
        (erodeRowGo rowu rowm rowl orig.w y fuel x ul um ml mm ll lm g).get t y =
          (g.get t y && erodeKeep orig t y) := by
  intro fuel
  induction fuel with
  | zero =>
    intro x ul um ml mm ll lm g _ _ _ t hxt _ htf
    exact absurd htf (by omega)
  | succ n ih =>
    intro x ul um ml mm ll lm g hgw hgh hinv t hxt htw htf
    have hxw : x < orig.w := Nat.lt_of_le_of_lt hxt htw
    obtain ⟨hul, hum, hml, hmm, hll, hlm⟩ := hinv hxw
    have e1 : ((x + 1 : Nat) : Int) = (x : Int) + 1 := by push_cast; ring
    have e2 : ((x + 1 : Nat) : Int) - 1 = (x : Int) := by push_cast; ring
    have e3 : ((y + 1 : Nat) : Int) = (y : Int) + 1 := by push_cast; ring
    have hurv : (if x + 1 < orig.w then rowu (x + 1) else false) =
        orig.getI ((x : Int) + 1) ((y : Int) - 1) := by
      split
      · rw [hu, e1]
      · exact (BitGrid.getI_oob_x orig _ (by omega)).symm
    have hmrv : (if x + 1 < orig.w then rowm (x + 1) else false) =
        orig.getI ((x : Int) + 1) (y : Int) := by
      split
      · rw [hm, ← BitGrid.getI_coe, e1]
      · exact (BitGrid.getI_oob_x orig _ (by omega)).symm
    have hlrv : (if x + 1 < orig.w then rowl (x + 1) else false) =
        orig.getI ((x : Int) + 1) ((y : Int) + 1) := by
      split
      · rw [hl, ← BitGrid.getI_coe, e1, e3]
      · exact (BitGrid.getI_oob_x orig _ (by omega)).symm
    simp only [erodeRowGo, hurv, hmrv, hlrv, hul, hum, hml, hmm, hll, hlm,
      erodeKeep_fold]
    rcases Nat.eq_or_lt_of_le hxt with heq | hlt
    · subst heq
      refine (erodeRowGo_frame rowu rowm rowl orig.w y n (x + 1) _ _ _ _ _ _ _
        x y (Or.inr (Nat.lt_succ_self x))).trans ?_
      cases hk : erodeKeep orig x y with
      | true => simp [hk]
      | false =>
        simp only [Bool.not_false, Bool.and_false]
        rw [if_pos trivial]
        exact BitGrid.get_set_same g (by rw [hgw]; exact hxw)
          (by rw [hgh]; exact hy) false
    · refine (ih (x + 1) _ _ _ _ _ _ _ ?_ ?_ ?_ t (by omega) htw (by omega)).trans ?_
      · split <;> exact hgw
      · split <;> exact hgh
      · intro hx1w
        refine ⟨?_, ?_, ?_, ?_, ?_, ?_⟩
        · rw [e2]
        · rw [e1]
        · rw [e2, BitGrid.getI_coe]
        · rw [← BitGrid.getI_coe, e1]
        · rw [e2]
        · rw [e1]
      · have hne : ¬(t = x ∧ y = y) := fun hc => absurd hc.1 (by omega)
        split
        · rw [BitGrid.get_set_ne g hne false]
        · rfl

lemma erodeGo_spec (orig : BitGrid) :
    ∀ (fuel y : Nat) (rowm rowl : Nat → Bool) (g : BitGrid),
      g.w = orig.w → g.h = orig.h →
      orig.h ≤ y + fuel →
      (∀ i : Nat, rowm i = orig.getI (i : Int) ((y : Int) - 1)) →
      (∀ i : Nat, rowl i = orig.get i y) →
      (∀ x' y', y ≤ y' → g.get x' y' = orig.get x' y') →
      (∀ x' y', y' < y → g.get x' y' = (orig.get x' y' && erodeKeep orig x' y')) →
      ∀ x' y', (erodeGo orig.w orig.h fuel y rowm rowl g).get x' y' =
        (orig.get x' y' && erodeKeep orig x' y') := by
  intro fuel
  induction fuel with
  | zero =>
    intro y rowm rowl g _ hgh hfuel _ _ h6 h7 x' y'
    rcases Nat.lt_or_ge y' y with hy' | hy'
    · exact h7 x' y' hy'
    · rw [show (erodeGo orig.w orig.h 0 y rowm rowl g) = g from rfl,
        h6 x' y' hy', BitGrid.get_oob_y orig x' (show orig.h ≤ y' by omega),
        Bool.false_and]
  | succ n ih =>
    intro y rowm rowl g hgw hgh hfuel h4 h5 h6 h7 x' y'
    rw [erodeGo]
    by_cases hyh : y < orig.h
    · rw [if_pos hyh]
      have hrow := erodeRowGo_spec orig rowm rowl (fun i => g.get i (y + 1)) y
        h4 h5 (fun i => h6 i (y + 1) (Nat.le_succ y)) hyh
      have hdims := erodeRowGo_dims rowm rowl (fun i => g.get i (y + 1)) orig.w y
        orig.w 0 false (rowm 0) false (rowl 0) false (g.get 0 (y + 1)) g
      have hframe := erodeRowGo_frame rowm rowl (fun i => g.get i (y + 1)) orig.w y
        orig.w 0 false (rowm 0) false (rowl 0) false (g.get 0 (y + 1)) g
      have hinv0 : 0 < orig.w →
          false = orig.getI ((0 : Int) - 1) ((y : Int) - 1) ∧
          rowm 0 = orig.getI ((0 : Nat) : Int) ((y : Int) - 1) ∧
          false = orig.getI ((0 : Int) - 1) ((y : Nat) : Int) ∧
          rowl 0 = orig.get 0 y ∧
          false = orig.getI ((0 : Int) - 1) ((y : Int) + 1) ∧
          g.get 0 (y + 1) = orig.getI ((0 : Nat) : Int) ((y : Int) + 1) := by
        intro _
        refine ⟨?_, ?_, ?_, h5 0, ?_, ?_⟩
        · rw [BitGrid.getI_neg_x orig _ (by norm_num)]
        · rw [h4 0]
        · rw [BitGrid.getI_neg_x orig _ (by norm_num)]
        · rw [BitGrid.getI_neg_x orig _ (by norm_num)]
        · rw [h6 0 (y + 1) (Nat.le_succ y), ← BitGrid.getI_coe]
          norm_num
      apply ih (y + 1)
      · exact hdims.1.trans hgw
      · exact hdims.2.trans hgh
      · omega
      · intro i
        rw [h5 i, ← BitGrid.getI_coe]
        congr 1
        push_cast
        ring
      · intro i
        exact h6 i (y + 1) (Nat.le_succ y)
      · intro a b hab
        rw [hframe a b (Or.inl (by omega)), h6 a b (by omega)]
      · intro a b hab
        rcases Nat.lt_or_ge b y with hby | hby
        · rw [hframe a b (Or.inl (by omega)), h7 a b hby]
        · have hby' : b = y := by omega
          subst hby'
          rcases Nat.lt_or_ge a orig.w with haw | haw
          · rw [hrow orig.w 0 false (rowm 0) false (rowl 0) false
              (g.get 0 (b + 1)) g hgw hgh hinv0 a (Nat.zero_le a) haw (by omega),
              h6 a b (Nat.le_refl b)]
          · have hoob : (erodeRowGo rowm rowl (fun i => g.get i (b + 1)) orig.w b
                orig.w 0 false (rowm 0) false (rowl 0) false (g.get 0 (b + 1))
                g).get a b = false := by
              apply BitGrid.get_oob_x
              rw [hdims.1, hgw]
              exact haw
            rw [hoob, BitGrid.get_oob_x orig haw b, Bool.false_and]
    · rw [if_neg hyh]
      rcases Nat.lt_or_ge y' y with hy' | hy'
      · exact h7 x' y' hy'
      · rw [h6 x' y' hy', BitGrid.get_oob_y orig x' (show orig.h ≤ y' by omega),
          Bool.false_and]

/-- Pointwise characterisation of BitGrid::erode: the eroded value of any
pixel is its pre-erosion value conjoined with the eight-consecutive-pair
survival rule evaluated on pre-erosion values. -/
lemma erode_get_spec (g : BitGrid) (x y : Nat) :
    (g.erode).get x y = (g.get x y && erodeKeep g x y) := by
  unfold BitGrid.erode
  apply erodeGo_spec g g.h 0 (fun _ => false) (fun i => g.get i 0) g rfl rfl
    (by omega)
  · intro i
    rw [BitGrid.getI_neg_y g _ (by norm_num)]
  · intro i
    rfl
  · intro a b _
    rfl
  · intro a b hb
    exact absurd hb (Nat.not_lt_zero b)

lemma centroidRowGo_empty (g : BitGrid) (hg : ∀ x y, g.get x y = false) (y : Nat) :
    ∀ fuel x acc, centroidRowGo g y fuel x acc = acc := by
  intro fuel
  induction fuel with
  | zero => intro x acc; rfl
  | succ n ih =>
    intro x acc
    obtain ⟨ax, ay, cnt⟩ := acc
    rw [centroidRowGo, hg]
    exact ih (x + 1) (ax, ay, cnt)

lemma centroidGo_empty (g : BitGrid) (hg : ∀ x y, g.get x y = false) :
    ∀ fuel y acc, centroidGo g fuel y acc = acc := by
  intro fuel
  induction fuel with
  | zero => intro y acc; rfl
  | succ n ih =>
    intro y acc
    rw [centroidGo, centroidRowGo_empty g hg]
    exact ih (y + 1) acc

/-! Lemmas characterising the mask construction of get_bitgrid_for_dataset,
towards claims C2, C5 and C9.  The three row writes touch exactly the
columns boff_x..boff_x+bsize_x-1 of one row, each pixel once. -/

lemma maskRowSeed_dims (row_ndv : Nat → Bool) (boff_x y : Nat) :
    ∀ fuel i mask,
      (maskRowSeed row_ndv boff_x y fuel i mask).w = mask.w ∧
      (maskRowSeed row_ndv boff_x y fuel i mask).h = mask.h := by
  intro fuel
  induction fuel with
  | zero => intro i mask; exact ⟨rfl, rfl⟩
  | succ n ih => intro i mask; rw [maskRowSeed]; exact ⟨(ih _ _).1, (ih _ _).2⟩

lemma maskRowInvert_dims (row_ndv : Nat → Bool) (boff_x y : Nat) :
    ∀ fuel i mask,
      (maskRowInvert row_ndv boff_x y fuel i mask).w = mask.w ∧
      (maskRowInvert row_ndv boff_x y fuel i mask).h = mask.h := by
  intro fuel
  induction fuel with
  | zero => intro i mask; exact ⟨rfl, rfl⟩
  | succ n ih =>
    intro i mask
    rw [maskRowInvert]
    exact ⟨(ih _ _).1.trans (by split <;> rfl), (ih _ _).2.trans (by split <;> rfl)⟩

lemma maskRowUnion_dims (row_ndv : Nat → Bool) (boff_x y : Nat) :
    ∀ fuel i mask,
      (maskRowUnion row_ndv boff_x y fuel i mask).w = mask.w ∧
      (maskRowUnion row_ndv boff_x y fuel i mask).h = mask.h := by
  intro fuel
  induction fuel with
  | zero => intro i mask; exact ⟨rfl, rfl⟩
  | succ n ih =>
    intro i mask
    rw [maskRowUnion]
    exact ⟨(ih _ _).1.trans (by split <;> rfl), (ih _ _).2.trans (by split <;> rfl)⟩

lemma maskRowSeed_frame (row_ndv : Nat → Bool) (boff_x y : Nat) :
    ∀ fuel i mask x' y',
      (y' ≠ y ∨ x' < boff_x + i ∨ boff_x + i + fuel ≤ x') →
      (maskRowSeed row_ndv boff_x y fuel i mask).get x' y' = mask.get x' y' := by
  intro fuel
  induction fuel with
  | zero => intro i mask x' y' _; rfl
  | succ n ih =>
    intro i mask x' y' hcond
    rw [maskRowSeed]
    refine (ih (i + 1) _ x' y' ?_).trans ?_
    · rcases hcond with h | h | h
      · exact Or.inl h
      · exact Or.inr (Or.inl (by omega))
      · exact Or.inr (Or.inr (by omega))
    · apply BitGrid.get_set_ne
      rintro ⟨rfl, rfl⟩
      rcases hcond with h | h | h
      · exact h rfl
      · omega
      · omega

lemma maskRowInvert_frame (row_ndv : Nat → Bool) (boff_x y : Nat) :
    ∀ fuel i mask x' y',
      (y' ≠ y ∨ x' < boff_x + i ∨ boff_x + i + fuel ≤ x') →
      (maskRowInvert row_ndv boff_x y fuel i mask).get x' y' = mask.get x' y' := by
  intro fuel
  induction fuel with
  | zero => intro i mask x' y' _; rfl
  | succ n ih =>
    intro i mask x' y' hcond
    rw [maskRowInvert]
    refine (ih (i + 1) _ x' y' ?_).trans ?_
    · rcases hcond with h | h | h
      · exact Or.inl h
      · exact Or.inr (Or.inl (by omega))
      · exact Or.inr (Or.inr (by omega))
    · split
      · apply BitGrid.get_set_ne
        rintro ⟨rfl, rfl⟩
        rcases hcond with h | h | h
        · exact h rfl
        · omega
        · omega
      · rfl

lemma maskRowUnion_frame (row_ndv : Nat → Bool) (boff_x y : Nat) :
    ∀ fuel i mask x' y',
      (y' ≠ y ∨ x' < boff_x + i ∨ boff_x + i + fuel ≤ x') →
      (maskRowUnion row_ndv boff_x y fuel i mask).get x' y' = mask.get x' y' := by
  intro fuel
  induction fuel with
  | zero => intro i mask x' y' _; rfl
  | succ n ih =>
    intro i mask x' y' hcond
    rw [maskRowUnion]
    refine (ih (i + 1) _ x' y' ?_).trans ?_
    · rcases hcond with h | h | h
      · exact Or.inl h
      · exact Or.inr (Or.inl (by omega))
      · exact Or.inr (Or.inr (by omega))
    · split
      · apply BitGrid.get_set_ne
        rintro ⟨rfl, rfl⟩
        rcases hcond with h | h | h
        · exact h rfl
        · omega
        · omega
      · rfl

lemma maskRowSeed_hit (row_ndv : Nat → Bool) (boff_x y : Nat) :
    ∀ fuel i mask x',
      boff_x + i ≤ x' → x' < boff_x + i + fuel → x' < mask.w → y < mask.h →
      (maskRowSeed row_ndv boff_x y fuel i mask).get x' y =
        !row_ndv (x' - boff_x) := by
  intro fuel
  induction fuel with
  | zero => intro i mask x' h1 h2 _ _; exact absurd h2 (by omega)
  | succ n ih =>
    intro i mask x' h1 h2 hxw hyh
    rw [maskRowSeed]
    rcases Nat.eq_or_lt_of_le h1 with heq | hlt
    · subst heq
      rw [maskRowSeed_frame row_ndv boff_x y n (i + 1) _ (boff_x + i) y
        (Or.inr (Or.inl (by omega)))]
      have hi : boff_x + i - boff_x = i := by omega
      rw [hi]
      exact BitGrid.get_set_same mask hxw hyh (!row_ndv i)
    · exact ih (i + 1) _ x' (by omega) (by omega) hxw hyh

lemma maskRowInvert_hit (row_ndv : Nat → Bool) (boff_x y : Nat) :
    ∀ fuel i mask x',
      boff_x + i ≤ x' → x' < boff_x + i + fuel → x' < mask.w → y < mask.h →
      (maskRowInvert row_ndv boff_x y fuel i mask).get x' y =
        (if row_ndv (x' - boff_x) then false else mask.get x' y) := by
  intro fuel
  induction fuel with
  | zero => intro i mask x' h1 h2 _ _; exact absurd h2 (by omega)
  | succ n ih =>
    intro i mask x' h1 h2 hxw hyh
    rw [maskRowInvert]
    rcases Nat.eq_or_lt_of_le h1 with heq | hlt
    · subst heq
      rw [maskRowInvert_frame row_ndv boff_x y n (i + 1) _ (boff_x + i) y
        (Or.inr (Or.inl (by omega)))]
      have hi : boff_x + i - boff_x = i := by omega
      rw [hi]
      cases hndv : row_ndv i with
      | true =>
        rw [if_pos (show true = true from rfl), if_pos (show true = true from rfl)]
        exact BitGrid.get_set_same mask hxw hyh false
      | false =>
        rw [if_neg (show ¬(false = true) by decide),
          if_neg (show ¬(false = true) by decide)]
    · refine (ih (i + 1) _ x' (by omega) (by omega) ?_ ?_).trans ?_
      · split <;> exact hxw
      · split <;> exact hyh
      · have hmg : (if row_ndv i = true then mask.set (boff_x + i) y false
            else mask).get x' y = mask.get x' y := by
          split
          · exact BitGrid.get_set_ne mask (by rintro ⟨rfl, -⟩; omega) false
          · rfl
        rw [hmg]

lemma maskRowUnion_hit (row_ndv : Nat → Bool) (boff_x y : Nat) :
    ∀ fuel i mask x',
      boff_x + i ≤ x' → x' < boff_x + i + fuel → x' < mask.w → y < mask.h →
      (maskRowUnion row_ndv boff_x y fuel i mask).get x' y =
        (if row_ndv (x' - boff_x) then mask.get x' y else true) := by
  intro fuel
  induction fuel with
  | zero => intro i mask x' h1 h2 _ _; exact absurd h2 (by omega)
  | succ n ih =>
    intro i mask x' h1 h2 hxw hyh
    rw [maskRowUnion]
    rcases Nat.eq_or_lt_of_le h1 with heq | hlt
    · subst heq
      rw [maskRowUnion_frame row_ndv boff_x y n (i + 1) _ (boff_x + i) y
        (Or.inr (Or.inl (by omega)))]
      have hi : boff_x + i - boff_x = i := by omega
      rw [hi]
      cases hndv : row_ndv i with
      | true =>
        rw [if_neg (show ¬((!true) = true) by decide),
          if_pos (show true = true from rfl)]
      | false =>
        rw [if_pos (show (!false) = true by decide),
          if_neg (show ¬(false = true) by decide)]
        exact BitGrid.get_set_same mask hxw hyh true
    · refine (ih (i + 1) _ x' (by omega) (by omega) ?_ ?_).trans ?_
      · split <;> exact hxw
      · split <;> exact hyh
      · have hmg : (if (!row_ndv i) = true then mask.set (boff_x + i) y true
            else mask).get x' y = mask.get x' y := by
          split
          · exact BitGrid.get_set_ne mask (by rintro ⟨rfl, -⟩; omega) true
          · rfl
        rw [hmg]

lemma blockRowsGo_dims (ds : RasterDataset) (nd : NdvDef)
    (k b boff_x boff_y bsize_x : Nat) :
    ∀ fuel j mask,
      (blockRowsGo ds nd k b boff_x boff_y bsize_x fuel j mask).w = mask.w ∧
      (blockRowsGo ds nd k b boff_x boff_y bsize_x fuel j mask).h = mask.h := by
  intro fuel
  induction fuel with
  | zero => intro j mask; exact ⟨rfl, rfl⟩
  | succ n ih =>
    intro j mask
    rw [blockRowsGo]
    constructor
    · refine (ih _ _).1.trans ?_
      split
      · exact (maskRowSeed_dims _ _ _ _ _ _).1
      · split
        · exact (maskRowInvert_dims _ _ _ _ _ _).1
        · exact (maskRowUnion_dims _ _ _ _ _ _).1
    · refine (ih _ _).2.trans ?_
      split
      · exact (maskRowSeed_dims _ _ _ _ _ _).2
      · split
        · exact (maskRowInvert_dims _ _ _ _ _ _).2
        · exact (maskRowUnion_dims _ _ _ _ _ _).2

lemma blockRowsGo_frame (ds : RasterDataset) (nd : NdvDef)
    (k b boff_x boff_y bsize_x : Nat) :
    ∀ fuel j mask x' y',
      (y' < boff_y + j ∨ boff_y + j + fuel ≤ y' ∨ x' < boff_x ∨
        boff_x + bsize_x ≤ x') →
      (blockRowsGo ds nd k b boff_x boff_y bsize_x fuel j mask).get x' y' =
        mask.get x' y' := by
  intro fuel
  induction fuel with
  | zero => intro j mask x' y' _; rfl
  | succ n ih =>
    intro j mask x' y' hcond
    rw [blockRowsGo]
    refine (ih (j + 1) _ x' y' ?_).trans ?_
    · rcases hcond with h | h | h | h
      · exact Or.inl (by omega)
      · exact Or.inr (Or.inl (by omega))
      · exact Or.inr (Or.inr (Or.inl h))
      · exact Or.inr (Or.inr (Or.inr h))
    · have hrow : y' ≠ boff_y + j ∨ x' < boff_x + 0 ∨ boff_x + 0 + bsize_x ≤ x' := by
        rcases hcond with h | h | h | h
        · exact Or.inl (by omega)
        · exact Or.inl (by omega)
        · exact Or.inr (Or.inl (by omega))
        · exact Or.inr (Or.inr (by omega))
      split
      · exact maskRowSeed_frame _ _ _ _ _ _ x' y' hrow
      · split
        · exact maskRowInvert_frame _ _ _ _ _ _ x' y' hrow
        · exact maskRowUnion_frame _ _ _ _ _ _ x' y' hrow

lemma blockRowsGo_hit (ds : RasterDataset) (nd : NdvDef)
    (k b boff_x boff_y bsize_x : Nat) :
    ∀ fuel j mask x y,
      boff_x ≤ x → x < boff_x + bsize_x →
      boff_y + j ≤ y → y < boff_y + j + fuel →
      x < mask.w → y < mask.h →
      (blockRowsGo ds nd k b boff_x boff_y bsize_x fuel j mask).get x y =
        bandUpdate k nd.invert (mask.get x y) (nd.check k (ds.sample b x y)) := by
  intro fuel
  induction fuel with
  | zero => intro j mask x y _ _ h3 h4 _ _; exact absurd h4 (by omega)
  | succ n ih =>
    intro j mask x y h1 h2 h3 h4 hxw hyh
    rw [blockRowsGo]
    rcases Nat.eq_or_lt_of_le h3 with heq | hlty
    · subst heq
      have hsample : boff_x + (x - boff_x) = x := by omega
      have hframe : ∀ m : BitGrid,
          (blockRowsGo ds nd k b boff_x boff_y bsize_x n (j + 1) m).get x (boff_y + j) =
            m.get x (boff_y + j) :=
        fun m => blockRowsGo_frame ds nd k b boff_x boff_y bsize_x n (j + 1) m
          x (boff_y + j) (Or.inl (by omega))
      split
      · rename_i hk0
        rw [hframe, maskRowSeed_hit _ _ _ _ 0 mask x (by omega) (by omega) hxw hyh]
        simp [hsample, hk0, bandUpdate]
      · rename_i hk0
        split
        · rename_i hinv
          rw [hframe, maskRowInvert_hit _ _ _ _ 0 mask x (by omega) (by omega) hxw hyh]
          have hinv' : nd.invert = true := hinv
          simp only [hsample, bandUpdate, if_neg hk0, hinv', if_pos]
          cases nd.check k (ds.sample b x (boff_y + j)) <;> simp
        · rename_i hinv
          rw [hframe, maskRowUnion_hit _ _ _ _ 0 mask x (by omega) (by omega) hxw hyh]
          have hinv' : nd.invert = false := by
            have h' : ¬(nd.isInvert = true) := hinv
            simpa [NdvDef.isInvert] using h'
          simp only [hsample, bandUpdate, if_neg hk0, hinv']
          cases nd.check k (ds.sample b x (boff_y + j)) <;> simp
    · have hrowframe : y ≠ boff_y + j ∨ x < boff_x + 0 ∨ boff_x + 0 + bsize_x ≤ x :=
        Or.inl (by omega)
      split
      · rename_i hk0
        refine (ih (j + 1) _ x y h1 h2 (by omega) (by omega) ?_ ?_).trans ?_
        · rw [(maskRowSeed_dims _ _ _ _ _ _).1]; exact hxw
        · rw [(maskRowSeed_dims _ _ _ _ _ _).2]; exact hyh
        · rw [maskRowSeed_frame _ _ _ _ _ _ x y hrowframe]
      · split
        · refine (ih (j + 1) _ x y h1 h2 (by omega) (by omega) ?_ ?_).trans ?_
          · rw [(maskRowInvert_dims _ _ _ _ _ _).1]; exact hxw
          · rw [(maskRowInvert_dims _ _ _ _ _ _).2]; exact hyh
          · rw [maskRowInvert_frame _ _ _ _ _ _ x y hrowframe]
        · refine (ih (j + 1) _ x y h1 h2 (by omega) (by omega) ?_ ?_).trans ?_
          · rw [(maskRowUnion_dims _ _ _ _ _ _).1]; exact hxw
          · rw [(maskRowUnion_dims _ _ _ _ _ _).2]; exact hyh
          · rw [maskRowUnion_frame _ _ _ _ _ _ x y hrowframe]

lemma bandXBlocksGo_dims (ds : RasterDataset) (nd : NdvDef)
    (k b bx boff_y bsize_y : Nat) :
    ∀ fuel boff_x mask,
      (bandXBlocksGo ds nd k b bx boff_y bsize_y fuel boff_x mask).w = mask.w ∧
      (bandXBlocksGo ds nd k b bx boff_y bsize_y fuel boff_x mask).h = mask.h := by
  intro fuel
  induction fuel with
  | zero => intro boff_x mask; exact ⟨rfl, rfl⟩
  | succ n ih =>
    intro boff_x mask
    rw [bandXBlocksGo]
    split
    · exact ⟨(ih _ _).1.trans (blockRowsGo_dims _ _ _ _ _ _ _ _ _ _).1,
        (ih _ _).2.trans (blockRowsGo_dims _ _ _ _ _ _ _ _ _ _).2⟩
    · exact ⟨rfl, rfl⟩

lemma bandXBlocksGo_yframe (ds : RasterDataset) (nd : NdvDef)
    (k b bx boff_y bsize_y : Nat) :
    ∀ fuel boff_x mask x' y',
      (y' < boff_y ∨ boff_y + bsize_y ≤ y') →
      (bandXBlocksGo ds nd k b bx boff_y bsize_y fuel boff_x mask).get x' y' =
        mask.get x' y' := by
  intro fuel
  induction fuel with
  | zero => intro boff_x mask x' y' _; rfl
  | succ n ih =>
    intro boff_x mask x' y' hcond
    rw [bandXBlocksGo]
    split
    · refine (ih _ _ x' y' hcond).trans ?_
      refine blockRowsGo_frame ds nd k b boff_x boff_y _ _ 0 mask x' y' ?_
      rcases hcond with h | h
      · exact Or.inl (by omega)
      · exact Or.inr (Or.inl (by omega))
    · rfl

lemma bandXBlocksGo_xframe (ds : RasterDataset) (nd : NdvDef)
    (k b bx boff_y bsize_y : Nat) :
    ∀ fuel boff_x mask x' y', x' < boff_x →
      (bandXBlocksGo ds nd k b bx boff_y bsize_y fuel boff_x mask).get x' y' =
        mask.get x' y' := by
  intro fuel
  induction fuel with
  | zero => intro boff_x mask x' y' _; rfl
  | succ n ih =>
    intro boff_x mask x' y' hcond
    rw [bandXBlocksGo]
    split
    · refine (ih _ _ x' y' (by omega)).trans ?_
      exact blockRowsGo_frame ds nd k b boff_x boff_y _ _ 0 mask x' y'
        (Or.inr (Or.inr (Or.inl (by omega))))
    · rfl

lemma bandXBlocksGo_spec (ds : RasterDataset) (nd : NdvDef)
    (k b bx boff_y bsize_y : Nat) (hbx : 1 ≤ bx) :
    ∀ fuel boff_x mask x y,
      mask.w = ds.w → mask.h = ds.h →
      boff_x ≤ x → x < ds.w → ds.w ≤ boff_x + fuel → y < ds.h →
      (bandXBlocksGo ds nd k b bx boff_y bsize_y fuel boff_x mask).get x y =
        (if boff_y ≤ y ∧ y < boff_y + bsize_y
         then bandUpdate k nd.invert (mask.get x y) (nd.check k (ds.sample b x y))
         else mask.get x y) := by
  intro fuel
  induction fuel with
  | zero => intro boff_x mask x y _ _ h3 h4 h5 _; exact absurd h5 (by omega)
  | succ n ih =>
    intro boff_x mask x y hw hh h3 h4 h5 h6
    rw [bandXBlocksGo, if_pos (show boff_x < ds.w by omega)]
    by_cases hhit : x < boff_x + (if bx + boff_x > ds.w then ds.w - boff_x else bx)
    · rw [bandXBlocksGo_xframe ds nd k b bx boff_y bsize_y n (boff_x + bx) _ x y
        (by split at hhit <;> omega)]
      by_cases hwin : boff_y ≤ y ∧ y < boff_y + bsize_y
      · rw [if_pos hwin]
        exact blockRowsGo_hit ds nd k b boff_x boff_y _ bsize_y 0 mask x y h3 hhit
          (by omega) (by omega) (by rw [hw]; exact h4) (by rw [hh]; exact h6)
      · rw [if_neg hwin]
        refine blockRowsGo_frame ds nd k b boff_x boff_y _ bsize_y 0 mask x y ?_
        rcases Nat.lt_or_ge y boff_y with h | h
        · exact Or.inl (by omega)
        · exact Or.inr (Or.inl (by omega))
    · by_cases hc : bx + boff_x > ds.w
      · rw [if_pos hc] at hhit
        exact absurd h4 (by omega)
      · rw [if_neg hc] at hhit
        have hstep : (blockRowsGo ds nd k b boff_x boff_y
            (if bx + boff_x > ds.w then ds.w - boff_x else bx) bsize_y 0 mask).get x y =
            mask.get x y := by
          refine blockRowsGo_frame ds nd k b boff_x boff_y _ bsize_y 0 mask x y ?_
          refine Or.inr (Or.inr (Or.inr ?_))
          rw [if_neg hc]
          omega
        refine (ih (boff_x + bx) _ x y ?_ ?_ (by omega) h4 (by omega) h6).trans ?_
        · rw [(blockRowsGo_dims _ _ _ _ _ _ _ _ _ _).1, hw]
        · rw [(blockRowsGo_dims _ _ _ _ _ _ _ _ _ _).2, hh]
        · rw [hstep]

lemma bandYBlocksGo_dims (ds : RasterDataset) (nd : NdvDef) (k b bx bsy : Nat) :
    ∀ fuel boff_y mask,
      (bandYBlocksGo ds nd k b bx bsy fuel boff_y mask).w = mask.w ∧
      (bandYBlocksGo ds nd k b bx bsy fuel boff_y mask).h = mask.h := by
  intro fuel
  induction fuel with
  | zero => intro boff_y mask; exact ⟨rfl, rfl⟩
  | succ n ih =>
    intro boff_y mask
    rw [bandYBlocksGo]
    split
    · exact ⟨(ih _ _).1.trans (bandXBlocksGo_dims _ _ _ _ _ _ _ _ _ _).1,
        (ih _ _).2.trans (bandXBlocksGo_dims _ _ _ _ _ _ _ _ _ _).2⟩
    · exact ⟨rfl, rfl⟩

lemma bandYBlocksGo_yframe (ds : RasterDataset) (nd : NdvDef) (k b bx bsy : Nat) :
    ∀ fuel boff_y mask x' y', y' < boff_y →
      (bandYBlocksGo ds nd k b bx bsy fuel boff_y mask).get x' y' =
        mask.get x' y' := by
  intro fuel
  induction fuel with
  | zero => intro boff_y mask x' y' _; rfl
  | succ n ih =>
    intro boff_y mask x' y' hcond
    rw [bandYBlocksGo]
    split
    · refine (ih _ _ x' y' (by omega)).trans ?_
      exact bandXBlocksGo_yframe ds nd k b bx boff_y _ ds.w 0 mask x' y'
        (Or.inl (by omega))
    · rfl

lemma bandYBlocksGo_spec (ds : RasterDataset) (nd : NdvDef) (k b bx bsy : Nat)
    (hbx : 1 ≤ bx) (hbsy : 1 ≤ bsy) :
    ∀ fuel boff_y mask x y,
      mask.w = ds.w → mask.h = ds.h →
      boff_y ≤ y → y < ds.h → ds.h ≤ boff_y + fuel → x < ds.w →
      (bandYBlocksGo ds nd k b bx bsy fuel boff_y mask).get x y =
        bandUpdate k nd.invert (mask.get x y) (nd.check k (ds.sample b x y)) := by
  intro fuel
  induction fuel with
  | zero => intro boff_y mask x y _ _ h3 h4 h5 _; exact absurd h5 (by omega)
  | succ n ih =>
    intro boff_y mask x y hw hh h3 h4 h5 h6
    rw [bandYBlocksGo, if_pos (show boff_y < ds.h by omega)]
    by_cases hhit : y < boff_y + (if bsy + boff_y > ds.h then ds.h - boff_y else bsy)
    · rw [bandYBlocksGo_yframe ds nd k b bx bsy n (boff_y + bsy) _ x y
        (by split at hhit <;> omega)]
      rw [bandXBlocksGo_spec ds nd k b bx boff_y _ hbx ds.w 0 mask x y hw hh
        (Nat.zero_le x) h6 (by omega) h4]
      rw [if_pos ⟨h3, hhit⟩]
    · by_cases hc : bsy + boff_y > ds.h
      · rw [if_pos hc] at hhit
        exact absurd h4 (by omega)
      · rw [if_neg hc] at hhit
        have hstep : (bandXBlocksGo ds nd k b bx boff_y
            (if bsy + boff_y > ds.h then ds.h - boff_y else bsy) ds.w 0 mask).get x y =
            mask.get x y := by
          refine bandXBlocksGo_yframe ds nd k b bx boff_y _ ds.w 0 mask x y ?_
          refine Or.inr ?_
          rw [if_neg hc]
          omega
        refine (ih (boff_y + bsy) _ x y ?_ ?_ (by omega) h4 (by omega) h6).trans ?_
        · rw [(bandXBlocksGo_dims _ _ _ _ _ _ _ _ _ _).1, hw]
        · rw [(bandXBlocksGo_dims _ _ _ _ _ _ _ _ _ _).2, hh]
        · rw [hstep]

lemma processBand_dims (ds : RasterDataset) (nd : NdvDef) (k b : Nat)
    (mask : BitGrid) :
    (processBand ds nd k b mask).w = mask.w ∧
    (processBand ds nd k b mask).h = mask.h := by
  unfold processBand
  exact ⟨(bandYBlocksGo_dims _ _ _ _ _ _ _ _ _).1,
    (bandYBlocksGo_dims _ _ _ _ _ _ _ _ _).2⟩

/-- Pointwise action of one band scan: every in-range pixel of the mask is
rewritten once, combining its previous value with the pixel's no-data flag
for this band according to the three-branch rule of src/src/mask.cc lines
212-224. -/
lemma processBand_get (ds : RasterDataset) (nd : NdvDef) (k b : Nat)
    (mask : BitGrid) (hw : mask.w = ds.w) (hh : mask.h = ds.h)
    (hbx : 1 ≤ ds.blocksize_x b) (hbsy : 1 ≤ ds.blocksize_y b)
    (x y : Nat) (hx : x < ds.w) (hy : y < ds.h) :
    (processBand ds nd k b mask).get x y =
      bandUpdate k nd.invert (mask.get x y) (nd.check k (ds.sample b x y)) := by
  unfold processBand
  exact bandYBlocksGo_spec ds nd k b (ds.blocksize_x b) (ds.blocksize_y b)
    hbx hbsy ds.h 0 mask x y hw hh (Nat.zero_le y) hy (by omega) hx

lemma bandsGo_ok (ds : RasterDataset) (nd : NdvDef) :
    ∀ (l : List Nat) (idx : Nat) (mask : BitGrid),
      mask.w = ds.w → mask.h = ds.h →
      (∀ b ∈ l, 1 ≤ b ∧ b ≤ ds.band_count) →
      ∃ m, bandsGo ds nd l idx mask = .ok m ∧ m.w = ds.w ∧ m.h = ds.h := by
  intro l
  induction l with
  | nil => intro idx mask hw hh _; exact ⟨mask, rfl, hw, hh⟩
  | cons b rest ih =>
    intro idx mask hw hh hv
    have hb := hv b (List.mem_cons_self b rest)
    rw [bandsGo, if_neg (by
      simp only [Bool.or_eq_true, decide_eq_true_eq]
      omega)]
    exact ih (idx + 1) (processBand ds nd idx b mask)
      ((processBand_dims ds nd idx b mask).1.trans hw)
      ((processBand_dims ds nd idx b mask).2.trans hh)
      (fun c hc => hv c (List.mem_cons_of_mem b hc))

lemma bandsGo_error (ds : RasterDataset) (nd : NdvDef) :
    ∀ (l : List Nat) (idx : Nat) (mask : BitGrid),
      (∃ b ∈ l, b < 1 ∨ ds.band_count < b) →
      bandsGo ds nd l idx mask = .error bandRangeError := by
  intro l
  induction l with
  | nil =>
    intro idx mask hbad
    obtain ⟨c, hc, _⟩ := hbad
    exact absurd hc (List.not_mem_nil c)
  | cons b rest ih =>
    intro idx mask hbad
    rw [bandsGo]
    by_cases hb : b < 1 ∨ ds.band_count < b
    · rw [if_pos (by
        simp only [Bool.or_eq_true, decide_eq_true_eq]
        omega)]
    · rw [if_neg (by
        simp only [Bool.or_eq_true, decide_eq_true_eq]
        omega)]
      apply ih
      obtain ⟨c, hc, hcr⟩ := hbad
      rcases List.mem_cons.mp hc with rfl | hcrest
      · exact absurd hcr hb
      · exact ⟨c, hcrest, hcr⟩

lemma bandsGo_append (ds : RasterDataset) (nd : NdvDef) :
    ∀ (l1 l2 : List Nat) (idx : Nat) (mask : BitGrid),
      bandsGo ds nd (l1 ++ l2) idx mask =
        (bandsGo ds nd l1 idx mask).bind
          (fun m => bandsGo ds nd l2 (idx + l1.length) m) := by
  intro l1
  induction l1 with
  | nil => intro l2 idx mask; simp [bandsGo, Except.bind]
  | cons b rest ih =>
    intro l2 idx mask
    rw [List.cons_append, bandsGo, bandsGo]
    split
    · rfl
    · rw [ih l2 (idx + 1) _]
      have e : idx + 1 + rest.length = idx + (b :: rest).length := by
        simp [List.length_cons]
        omega
      simp only [e]

/-! Claim theorems for the Ring / Mpoly geometry. -/

/-- C8: reversing a ring negates its oriented area and leaves its absolute
area unchanged. -/
theorem reverse_negates_orientedArea (r : Ring) :
    (r.reverse).orientedArea = -r.orientedArea ∧ (r.reverse).area = r.area := by
  have h : (r.reverse).orientedArea = -r.orientedArea := by
    unfold Ring.orientedArea Ring.reverse
    simp only
    rw [shoelace_reverse]
    ring
  refine ⟨h, ?_⟩
  unfold Ring.area
  rw [h, abs_neg]

/-- C6: two rings whose bounding boxes are disjoint (either box empty, or the
extents failing to overlap on some axis, exactly the is_disjoint test)
classify as RINGREL_DISJOINT, whatever the point sets do. -/
theorem bbox_disjoint_gives_disjoint (r1 r2 : Ring)
    (h : is_disjoint r1.getBbox r2.getBbox = true) :
    ring_ring_relation r1 r2 = RingRelation.RINGREL_DISJOINT := by
  unfold ring_ring_relation
  simp [h]

/-- Witness for C6: wRing1 and wRing2 have disjoint bounding boxes, and
ring_ring_relation classifies them as RINGREL_DISJOINT. -/
theorem bbox_disjoint_gives_disjoint_witness :
    is_disjoint wRing1.getBbox wRing2.getBbox = true ∧
    ring_ring_relation wRing1 wRing2 = RingRelation.RINGREL_DISJOINT :=
  ⟨by decide, bbox_disjoint_gives_disjoint wRing1 wRing2 (by decide)⟩

/-- C7: after deleteRing idx on a valid index, every remaining ring descends
from an original ring with the same points and hole flag whose parent_id did
not reference the deleted ring (orphans are removed, never left dangling);
its parent_id is decremented by exactly 1 when it exceeded idx, and is kept
unchanged otherwise, so holes keep referencing the same logical outer ring. -/
theorem deleteRing_renumbers (m : Mpoly) (idx : Nat) (hidx : idx < m.rings.length) :
    ∀ r ∈ (m.deleteRing idx).rings,
      ∃ r0 ∈ m.rings,
        r.pts = r0.pts ∧ r.is_hole = r0.is_hole ∧
        (r0.is_hole = true → r0.parent_id ≠ (idx : Int)) ∧
        r.parent_id = (if (idx : Int) < r0.parent_id then r0.parent_id - 1
                       else r0.parent_id) := by
  intro r hr
  unfold Mpoly.deleteRing at hr
  simp only [List.mem_map] at hr
  obtain ⟨a, ha, hfa⟩ := hr
  obtain ⟨hmem, hpred⟩ := List.mem_filter.mp ha
  have ha0 : a ∈ m.rings := List.eraseIdx_subset _ _ hmem
  have hpred' : ¬(a.is_hole = true ∧ a.parent_id = (idx : Int)) := by
    intro ⟨h1, h2⟩
    rw [h1, h2] at hpred
    simp at hpred
  refine ⟨a, ha0, ?_, ?_, ?_, ?_⟩
  · rw [← hfa]; by_cases hc : (idx : Int) < a.parent_id <;> simp [hc]
  · rw [← hfa]; by_cases hc : (idx : Int) < a.parent_id <;> simp [hc]
  · intro h1 h2; exact hpred' ⟨h1, h2⟩
  · rw [← hfa]; by_cases hc : (idx : Int) < a.parent_id <;> simp [hc]

/-- Witness for C7: deleting ring 0 of wMpoly removes its orphaned hole and
renumbers the remaining hole from parent 1 to parent 0. -/
theorem deleteRing_renumbers_witness :
    0 < wMpoly.rings.length ∧
    ∀ r ∈ (wMpoly.deleteRing 0).rings,
      ∃ r0 ∈ wMpoly.rings,
        r.pts = r0.pts ∧ r.is_hole = r0.is_hole ∧
        (r0.is_hole = true → r0.parent_id ≠ (0 : Int)) ∧
        r.parent_id = (if (0 : Int) < r0.parent_id then r0.parent_id - 1
                       else r0.parent_id) :=
  ⟨by decide, deleteRing_renumbers wMpoly 0 (by decide)⟩

/-- C3 (code bug): BitGrid::centroid never raises a degenerate-input error;
on an all-empty grid the loop leaves accum_x = accum_y = cnt = 0 and the
function still divides and returns, so the C++ doubles silently become NaN.
Stated for every all-empty grid: the accumulator triple at the point of
division is (0, 0, 0). -/
theorem centroid_empty_grid_no_check (g : BitGrid) (hg : ∀ x y, g.get x y = false) :
    g.centroidAccum = (0, 0, 0) := by
  unfold BitGrid.centroidAccum
  exact centroidGo_empty g hg g.h 0 (0, 0, 0)

/-- Witness for C3: the concrete empty 2-by-2 grid reaches the division with
count 0 and no error. -/
theorem centroid_empty_grid_no_check_witness :
    emptyGrid22.centroidAccum = (0, 0, 0) :=
  centroid_empty_grid_no_check emptyGrid22 (fun x y => by
    simp [emptyGrid22, BitGrid.construct, BitGrid.zero, BitGrid.get])

/-- C1 (amended): after erode, an in-range pixel is set iff it was set in the
pre-erosion grid and at least one of the eight consecutive neighbour pairs
(ul,u),(u,ur),(ur,r),(r,lr),(lr,d),(d,ll),(ll,l),(l,ul) was fully set in the
pre-erosion grid, out-of-grid neighbours counting as unset; the whole
right-hand side reads the pre-erosion grid even though erode mutates in
place. -/
theorem erode_pairwise_rule (g : BitGrid) (x y : Nat)
    (hx : x < g.w) (hy : y < g.h) :
    (g.erode).get x y = (g.get x y && erodeKeep g x y) :=
  erode_get_spec g x y

/-- Witness for C1: the amended rule evaluated at the centre of the concrete
grid g3. -/
theorem erode_pairwise_rule_witness :
    1 < g3.w ∧ 1 < g3.h ∧ (g3.erode).get 1 1 = (g3.get 1 1 && erodeKeep g3 1 1) :=
  ⟨by decide, by decide, erode_pairwise_rule g3 1 1 (by decide) (by decide)⟩

/-- Counterexample for C1 as stated: on g3 the claim's literal pair list
(lr,l),(l,ll),(ll,d),(d,ul) declares the centre pixel a survivor (pair
(lr,l) is fully set), yet erode clears it, because the code's consecutive
ring pairs are (lr,d),(d,ll),(ll,l),(l,ul). -/
theorem erode_claimed_pairs_counterexample :
    (g3.get 1 1 && erodeKeepClaimed g3 1 1) = true ∧ (g3.erode).get 1 1 = false :=
  ⟨by decide, by decide⟩

/-- C4 (amended): calling erode() on a 4-by-4 BitGrid with every pixel set
leaves all 4 corner cells true, because each corner keeps a fully set
consecutive neighbour pair, e.g. (r,lr) at the upper-left corner. -/
theorem erode_allTrue44_corners_stay_set :
    (allTrue44.erode).get 0 0 = true ∧ (allTrue44.erode).get 3 0 = true ∧
    (allTrue44.erode).get 0 3 = true ∧ (allTrue44.erode).get 3 3 = true := by
  refine ⟨?_, ?_, ?_, ?_⟩ <;> decide

/-- Counterexample for C4 as stated: the upper-left corner of the all-true
4-by-4 grid is not cleared by erode. -/
theorem erode_allTrue44_counterexample :
    ¬((allTrue44.erode).get 0 0 = false) := by decide

/-- C10: erosion is anti-extensive: any pixel set after erode was set
before; erosion never turns a pixel on. -/
theorem erode_subset (g : BitGrid) (x y : Nat)
    (h : (g.erode).get x y = true) : g.get x y = true := by
  have hs := erode_get_spec g x y
  rw [h] at hs
  cases hget : g.get x y
  · rw [hget, Bool.false_and] at hs
    exact absurd hs (by simp)
  · rfl

/-- Witness for C10: the centre of the all-true 3-by-3 grid survives erosion
and was indeed set beforehand. -/
theorem erode_subset_witness :
    (allTrue33.erode).get 1 1 = true ∧ allTrue33.get 1 1 = true :=
  ⟨by decide, erode_subset allTrue33 1 1 (by decide)⟩

/-- C9: get_bitgrid_for_dataset with an empty band list succeeds, returning
the freshly constructed and zeroed w-by-h grid in which every pixel reads
false. -/
theorem empty_bandlist_all_false (ds : RasterDataset) (nd : NdvDef) :
    get_bitgrid_for_dataset ds [] nd = .ok ((BitGrid.construct ds.w ds.h).zero) ∧
    ((BitGrid.construct ds.w ds.h).zero).w = ds.w ∧
    ((BitGrid.construct ds.w ds.h).zero).h = ds.h ∧
    ∀ x y, ((BitGrid.construct ds.w ds.h).zero).get x y = false :=
  ⟨rfl, rfl, rfl, fun x y => by
    simp [BitGrid.construct, BitGrid.zero, BitGrid.get]⟩

/-- C5: if any entry of the band list lies outside [1, band_count], the whole
build aborts with the fatal configuration error of src/src/mask.cc line 130
and no mask is returned, even when earlier bands in the list were valid and
already processed. -/
theorem invalid_band_aborts (ds : RasterDataset) (nd : NdvDef)
    (bandlist : List Nat)
    (hbad : ∃ b ∈ bandlist, b < 1 ∨ ds.band_count < b) :
    get_bitgrid_for_dataset ds bandlist nd = .error bandRangeError :=
  bandsGo_error ds nd bandlist 0 ((BitGrid.construct ds.w ds.h).zero) hbad

/-- Witness for C5: on a one-band source, the list [1, 5] has a valid first
band followed by an out-of-range band, and the build returns the fatal
error. -/
theorem invalid_band_aborts_witness :
    get_bitgrid_for_dataset wDs [1, 5] wNd = Except.error bandRangeError :=
  invalid_band_aborts wDs wNd [1, 5] (by decide)

/-- C2: the band combination rule of get_bitgrid_for_dataset, stated through
runs on prefixes of the band list (the run on a prefix of length k is
exactly the mask after the first k bands).  The band at position 0 seeds the
mask: a pixel is included iff it is not no-data in that band.  Every later
band with invert = false can only add pixels (new value = old OR not-ndv),
and every later band with invert = true can only remove pixels (new value =
old AND not-ndv). -/
theorem mask_combination_rule (ds : RasterDataset) (nd : NdvDef)
    (bandlist : List Nat)
    (hvalid : ∀ b ∈ bandlist, 1 ≤ b ∧ b ≤ ds.band_count)
    (hbs : ∀ b, 1 ≤ ds.blocksize_x b ∧ 1 ≤ ds.blocksize_y b)
    (x y : Nat) (hx : x < ds.w) (hy : y < ds.h)
    (k : Nat) (hk : k < bandlist.length) :
    ∃ mk mk1,
      get_bitgrid_for_dataset ds (bandlist.take k) nd = .ok mk ∧
      get_bitgrid_for_dataset ds (bandlist.take (k + 1)) nd = .ok mk1 ∧
      ((k = 0 →
        mk1.get x y = !nd.check 0 (ds.sample (bandlist.get ⟨k, hk⟩) x y)) ∧
       (k ≠ 0 → nd.invert = true →
        mk1.get x y =
          (mk.get x y && !nd.check k (ds.sample (bandlist.get ⟨k, hk⟩) x y))) ∧
       (k ≠ 0 → nd.invert = false →
        mk1.get x y =
          (mk.get x y || !nd.check k (ds.sample (bandlist.get ⟨k, hk⟩) x y)))) := by
  have hmask0w : ((BitGrid.construct ds.w ds.h).zero).w = ds.w := rfl
  have hmask0h : ((BitGrid.construct ds.w ds.h).zero).h = ds.h := rfl
  obtain ⟨mk, hmk, hmkw, hmkh⟩ := bandsGo_ok ds nd (bandlist.take k) 0
    ((BitGrid.construct ds.w ds.h).zero) hmask0w hmask0h
    (fun b hb => hvalid b (List.take_subset k bandlist hb))
  have hb := hvalid (bandlist.get ⟨k, hk⟩) (List.get_mem bandlist k hk)
  have htake : bandlist.take (k + 1) =
      bandlist.take k ++ [bandlist.get ⟨k, hk⟩] := by
    rw [List.take_succ, List.getElem?_eq_getElem hk]
    rfl
  have hlen : (bandlist.take k).length = k := by
    rw [List.length_take]
    omega
  have hrun1 : get_bitgrid_for_dataset ds (bandlist.take (k + 1)) nd =
      .ok (processBand ds nd k (bandlist.get ⟨k, hk⟩) mk) := by
    unfold get_bitgrid_for_dataset
    rw [htake, bandsGo_append]
    rw [hmk]
    show bandsGo ds nd [bandlist.get ⟨k, hk⟩] (0 + (bandlist.take k).length) mk = _
    rw [hlen]
    rw [bandsGo, if_neg (by
      simp only [Bool.or_eq_true, decide_eq_true_eq]
      omega)]
    rw [show (0 : Nat) + k = k from by omega]
    rfl
  have hget := processBand_get ds nd k (bandlist.get ⟨k, hk⟩) mk hmkw hmkh
    (hbs (bandlist.get ⟨k, hk⟩)).1 (hbs (bandlist.get ⟨k, hk⟩)).2 x y hx hy
  refine ⟨mk, processBand ds nd k (bandlist.get ⟨k, hk⟩) mk, hmk, hrun1,
    ?_, ?_, ?_⟩
  · intro hk0
    subst hk0
    rw [hget]
    simp [bandUpdate]
  · intro hk0 hinv
    rw [hget]
    simp [bandUpdate, hk0, hinv]
  · intro hk0 hinv
    rw [hget]
    simp [bandUpdate, hk0, hinv]

/-- Witness for C2: on the one-band 1-by-1 source wDs with the band list
[1, 1], the step from the first to the second band satisfies the
combination rule at pixel (0, 0). -/
theorem mask_combination_rule_witness :
    ∃ mk mk1,
      get_bitgrid_for_dataset wDs ([1, 1].take 1) wNd = .ok mk ∧
      get_bitgrid_for_dataset wDs ([1, 1].take 2) wNd = .ok mk1 ∧
      ((1 = 0 →
        mk1.get 0 0 = !wNd.check 0 (wDs.sample ([1, 1].get ⟨1, by decide⟩) 0 0)) ∧
       ((1 : Nat) ≠ 0 → wNd.invert = true →
        mk1.get 0 0 =
          (mk.get 0 0 && !wNd.check 1 (wDs.sample ([1, 1].get ⟨1, by decide⟩) 0 0))) ∧
       ((1 : Nat) ≠ 0 → wNd.invert = false →
        mk1.get 0 0 =
          (mk.get 0 0 || !wNd.check 1 (wDs.sample ([1, 1].get ⟨1, by decide⟩) 0 0)))) :=
  mask_combination_rule wDs wNd [1, 1] (by decide)
    (fun _ => ⟨Nat.le_refl 1, Nat.le_refl 1⟩) 0 0 (by decide) (by decide) 1
    (by decide)

end dangdal
